import Mathlib

/-!
Verification development for the `discover` service-discovery library.

The Rust source is shallowly embedded: Rust `String` values are modelled as
their UTF-8 byte sequences (`List Nat`, each element < 256), `Vec<String>`
as `List (List Nat)`, and `HashMap<String, String>` as an association list
`List (List Nat × List Nat)` whose lookup semantics is first-match
(`List.lookup`), matching the fact that a `HashMap` holds at most one entry
per key.  Fallible Rust code returning `Result` is embedded as `Except`.

External primitives (the `percent_encoding` crate, `serde_json` for a map
of strings, UTF-8 validation of `std::str::from_utf8`) are modelled
concretely, byte for byte, below.
-/

/-- UTF-8 encoding of a single code point. -/
def utf8EncodeCp (c : Nat) : List Nat :=
  if c ≤ 127 then [c]
  else if c ≤ 2047 then [192 + c / 64, 128 + c % 64]
  else if c ≤ 65535 then [224 + c / 4096, 128 + c / 64 % 64, 128 + c % 64]
  else [240 + c / 262144, 128 + c / 4096 % 64, 128 + c / 64 % 64, 128 + c % 64]

/-- Bytes of a Lean string, used to write byte-list literals readably:
the UTF-8 encoding, matching Rust `str::as_bytes`. -/
def strB (s : String) : List Nat := s.data.flatMap (fun c => utf8EncodeCp c.toNat)

/-! ## Percent encoding (`percent_encoding` crate)

The encode set used by the codec is `NON_ALPHANUMERIC` minus `*`, `-`, `.`,
`_` (codec.rs:88-92): every non-alphanumeric byte other than those four is
escaped as `%XX` with uppercase hex digits. -/

/-- Bytes kept verbatim by the codec's percent-encode set: ASCII
alphanumerics plus `*` (42), `-` (45), `.` (46), `_` (95). -/
def isUnreserved (b : Nat) : Bool :=
  (48 ≤ b && b ≤ 57) || (65 ≤ b && b ≤ 90) || (97 ≤ b && b ≤ 122) ||
    b == 42 || b == 45 || b == 46 || b == 95

/-- Uppercase hex digit byte for a nibble. -/
def hexDigitU (n : Nat) : Nat := if n < 10 then 48 + n else 55 + n

/-- Lowercase hex digit byte for a nibble (used by the serde_json escape
table). -/
def hexDigitL (n : Nat) : Nat := if n < 10 then 48 + n else 87 + n

/-- `utf8_percent_encode` with the codec's encode set, over raw bytes. -/
def pctEncode (l : List Nat) : List Nat :=
  l.flatMap (fun b =>
    if isUnreserved b then [b] else [37, hexDigitU (b / 16), hexDigitU (b % 16)])

/-- Whether a byte is an ASCII hex digit. -/
def isHexDigit (b : Nat) : Bool :=
  (48 ≤ b && b ≤ 57) || (65 ≤ b && b ≤ 70) || (97 ≤ b && b ≤ 102)

/-- Value of an ASCII hex digit byte. -/
def hexVal (b : Nat) : Nat :=
  if b ≤ 57 then b - 48 else if b ≤ 70 then b - 55 else b - 87

/-- `percent_decode_str`: a `%` followed by two hex digits becomes the
denoted byte; a `%` not followed by two hex digits is passed through
verbatim (the crate is lenient). -/
def pctDecode : List Nat → List Nat
  | [] => []
  | 37 :: a :: b :: rest =>
    if isHexDigit a && isHexDigit b then (hexVal a * 16 + hexVal b) :: pctDecode rest
    else 37 :: pctDecode (a :: b :: rest)
  | b :: rest => b :: pctDecode rest

/-! ## UTF-8 validation (`std::str::from_utf8`, `decode_utf8`) -/

/-- UTF-8 continuation byte, `0x80..=0xBF`. -/
def isCont (b : Nat) : Bool := 128 ≤ b && b ≤ 191

/-- Standard UTF-8 well-formedness of a byte sequence (shortest-form,
surrogate-free), as checked by `std::str::from_utf8`. -/
def isValidUtf8 : List Nat → Bool
  | [] => true
  | b :: rest =>
    if b ≤ 127 then isValidUtf8 rest
    else if b < 194 then false
    else if b ≤ 223 then
      match rest with
      | c1 :: r => isCont c1 && isValidUtf8 r
      | [] => false
    else if b ≤ 239 then
      match rest with
      | c1 :: c2 :: r =>
        (if b == 224 then 160 ≤ c1 && c1 ≤ 191
         else if b == 237 then 128 ≤ c1 && c1 ≤ 159
         else isCont c1) && isCont c2 && isValidUtf8 r
      | _ => false
    else if b ≤ 244 then
      match rest with
      | c1 :: c2 :: c3 :: r =>
        (if b == 240 then 144 ≤ c1 && c1 ≤ 191
         else if b == 244 then 128 ≤ c1 && c1 ≤ 143
         else isCont c1) && isCont c2 && isCont c3 && isValidUtf8 r
      | _ => false
    else false

/-! ## JSON for a map of strings (`serde_json`, external primitive)

The codec serialises `metadata : HashMap<String, String>` with
`serde_json::to_string` and parses it back with `serde_json::from_str`.
Both are modelled concretely for the object-of-strings fragment. -/

/-- serde_json string escaping of one byte: `"` and `\` get a backslash,
the five short control escapes are used where they exist, remaining control
bytes become `\u00XX` (lowercase hex), everything else is verbatim. -/
def jsonEscapeByte (b : Nat) : List Nat :=
  if b == 34 then [92, 34]
  else if b == 92 then [92, 92]
  else if b == 8 then [92, 98]
  else if b == 9 then [92, 116]
  else if b == 10 then [92, 110]
  else if b == 12 then [92, 102]
  else if b == 13 then [92, 114]
  else if b < 32 then [92, 117, 48, 48, hexDigitL (b / 16), hexDigitL (b % 16)]
  else [b]

/-- JSON string literal for a byte sequence: quote, escaped bytes, quote. -/
def jsonStringLit (s : List Nat) : List Nat :=
  34 :: (s.flatMap jsonEscapeByte ++ [34])

/-- `serde_json::to_string` of a map of strings: an object whose entries
are emitted in iteration order, with no whitespace.  Byte 123 is the
opening brace, 125 the closing brace, 58 the colon, 44 the comma. -/
def jsonSerializeMeta (m : List (List Nat × List Nat)) : List Nat :=
  123 :: (List.intercalate [44]
            (m.map (fun kv => jsonStringLit kv.1 ++ 58 :: jsonStringLit kv.2)) ++ [125])

/-- Reads four hex digits, returning the value and the remaining input. -/
def parseHex4 (l : List Nat) : Option (Nat × List Nat) :=
  match l with
  | a :: b :: c :: d :: rest =>
    if isHexDigit a && isHexDigit b && isHexDigit c && isHexDigit d then
      some (((hexVal a * 16 + hexVal b) * 16 + hexVal c) * 16 + hexVal d, rest)
    else none
  | _ => none

/-- Body of a JSON string after the opening quote: returns the decoded
bytes and the input remaining after the closing quote.  Handles the
standard escapes including `\uXXXX` with surrogate pairs; raw control
bytes are rejected, as serde_json does.  `fuel` bounds recursion and is
always given at least the input length plus one. -/
def parseStrBody : Nat → List Nat → Option (List Nat × List Nat)
  | 0, _ => none
  | _, [] => none
  | fuel + 1, b :: rest =>
    if b == 34 then some ([], rest)
    else if b == 92 then
      match rest with
      | [] => none
      | e :: rest2 =>
        let cont := fun (bytes : List Nat) (rem : List Nat) =>
          (parseStrBody fuel rem).map (fun p => (bytes ++ p.1, p.2))
        if e == 34 then cont [34] rest2
        else if e == 92 then cont [92] rest2
        else if e == 47 then cont [47] rest2
        else if e == 98 then cont [8] rest2
        else if e == 102 then cont [12] rest2
        else if e == 110 then cont [10] rest2
        else if e == 114 then cont [13] rest2
        else if e == 116 then cont [9] rest2
        else if e == 117 then
          match parseHex4 rest2 with
          | none => none
          | some (cp, rest3) =>
            if 55296 ≤ cp && cp ≤ 56319 then
              -- high surrogate: require a following \uDC00..\uDFFF low half
              match rest3 with
              | 92 :: 117 :: rest4 =>
                match parseHex4 rest4 with
                | some (lo, rest5) =>
                  if 56320 ≤ lo && lo ≤ 57343 then
                    cont (utf8EncodeCp (65536 + (cp - 55296) * 1024 + (lo - 56320))) rest5
                  else none
                | none => none
              | _ => none
            else if 56320 ≤ cp && cp ≤ 57343 then none
            else cont (utf8EncodeCp cp) rest3
        else none
    else if b < 32 then none
    else (parseStrBody fuel rest).map (fun p => (b :: p.1, p.2))

/-- Drops JSON whitespace (space, tab, newline, carriage return). -/
def skipWs : List Nat → List Nat
  | [] => []
  | b :: rest =>
    if b == 32 || b == 9 || b == 10 || b == 13 then skipWs rest else b :: rest

/-- Inserting into a string map: a later entry for an existing key replaces
the earlier value, as when serde_json collects entries into a `HashMap`. -/
def metaInsert (m : List (List Nat × List Nat)) (k v : List Nat) :
    List (List Nat × List Nat) :=
  if m.any (fun kv => kv.1 == k) then
    m.map (fun kv => if kv.1 == k then (k, v) else kv)
  else m ++ [(k, v)]

/-- Entries of a JSON object of strings, positioned just after `{` or after
a comma; returns the accumulated map and the input remaining after `}`. -/
def parseEntries :
    Nat → List (List Nat × List Nat) → List Nat →
      Option (List (List Nat × List Nat) × List Nat)
  | 0, _, _ => none
  | fuel + 1, acc, l =>
    match skipWs l with
    | 34 :: rest =>
      match parseStrBody (rest.length + 1) rest with
      | none => none
      | some (k, rest2) =>
        match skipWs rest2 with
        | 58 :: rest3 =>
          match skipWs rest3 with
          | 34 :: rest4 =>
            match parseStrBody (rest4.length + 1) rest4 with
            | none => none
            | some (v, rest5) =>
              match skipWs rest5 with
              | 44 :: rest6 => parseEntries fuel (metaInsert acc k v) rest6
              | 125 :: rest6 => some (metaInsert acc k v, rest6)
              | _ => none
          | _ => none
        | _ => none
    | _ => none

/-- `serde_json::from_str::<HashMap<String, String>>`: a JSON object whose
values are strings, with nothing but whitespace after it. -/
def jsonParseMeta (l : List Nat) : Option (List (List Nat × List Nat)) :=
  match skipWs l with
  | 123 :: rest =>
    let res :=
      match skipWs rest with
      | 125 :: rest2 => some (([] : List (List Nat × List Nat)), rest2)
      | _ => parseEntries (rest.length + 1) [] rest
    match res with
    | some (m, rest2) =>
      match skipWs rest2 with
      | [] => some m
      | _ => none
    | none => none
  | _ => none

/-! ## The Instance record (lib.rs:14-32)

Field types: every string is a byte list, `addrs` an ordered list,
`metadata` an association map with first-match lookup. -/

structure Instance where
  zone : List Nat
  env : List Nat
  appid : List Nat
  hostname : List Nat
  addrs : List (List Nat)
  version : List Nat
  metadata : List (List Nat × List Nat)
deriving Repr, DecidableEq

/-- `Instance::default()`: every field empty. -/
def Instance.defaultIns : Instance :=
  { zone := [], env := [], appid := [], hostname := [], addrs := [],
    version := [], metadata := [] }

/-- The data fed to the hasher by `impl Hash for Instance` (lib.rs:25-32):
`appid`, `version`, `env`, `addrs`, in that order, and nothing else.  Two
instances feed the hasher identical input exactly when these four agree. -/
def hashFields (i : Instance) : List Nat × List Nat × List Nat × List (List Nat) :=
  (i.appid, i.version, i.env, i.addrs)

/-- Extensional equality of two metadata maps, i.e. `HashMap` equality:
every key of either map looks up to the same value in both. -/
def metaEqv (m1 m2 : List (List Nat × List Nat)) : Bool :=
  (m1 ++ m2).all (fun kv => List.lookup kv.1 m1 == List.lookup kv.1 m2)

/-- The derived `PartialEq` on `Instance` (lib.rs:14): all seven fields
compared, `metadata` as a map. -/
def instEq (a b : Instance) : Bool :=
  a.zone == b.zone && a.env == b.env && a.appid == b.appid &&
    a.hostname == b.hostname && a.addrs == b.addrs && a.version == b.version &&
    metaEqv a.metadata b.metadata

/-! ## The default codec (codec.rs:94-159) -/

/-- The key encoder of `new_default_codec` (codec.rs:100): the `appid`
bytes, unchanged. -/
def keyEncode (ins : Instance) : List Nat := ins.appid

/-- The value encoder of `new_default_codec` (codec.rs:101-121): the fixed
&-separated, percent-encoded pair list.  `serde_json::to_string` of a map
of strings cannot fail, so the encoder is total here. -/
def valueEncode (ins : Instance) : List Nat :=
  strB "zone=" ++ pctEncode ins.zone ++
  strB "&env=" ++ pctEncode ins.env ++
  strB "&hostname=" ++ pctEncode ins.hostname ++
  ins.addrs.flatMap (fun addr => strB "&addrs=" ++ pctEncode addr) ++
  strB "&version=" ++ pctEncode ins.version ++
  strB "&metadata=" ++ pctEncode (jsonSerializeMeta ins.metadata)

/-- `value.split('&')`: split a byte sequence on byte 38; an empty input
yields one empty piece, and adjacent separators yield empty pieces, as
with `str::split`. -/
def splitOnB (sep : Nat) : List Nat → List (List Nat)
  | [] => [[]]
  | b :: rest =>
    let r := splitOnB sep rest
    if b == sep then [] :: r
    else
      match r with
      | h :: t => (b :: h) :: t
      | [] => [[b]]

/-- `pair.splitn(2, '=')` followed by the decoder's defaulting: the bytes
before the first `=` (byte 61) and the bytes after it, the latter empty
when there is no `=`. -/
def splitFirstEq : List Nat → List Nat × List Nat
  | [] => ([], [])
  | b :: rest =>
    if b == 61 then ([], rest)
    else
      let p := splitFirstEq rest
      (b :: p.1, p.2)

/-- Decode failures of the default decoder. -/
inductive DecodeErr where
  | badUtf8
  | badJson
deriving Repr, DecidableEq

/-- The decoder of `new_default_codec` (codec.rs:122-157).  Faithful to the
source, including the arm at codec.rs:143 that reads the `hostname` pair
but assigns its value to `env` (the `hostname` field is never written). -/
def decodeDefault (key value : List Nat) : Except DecodeErr Instance := do
  if !isValidUtf8 value then throw DecodeErr.badUtf8
  let pairs := (splitOnB 38 value).map splitFirstEq
  let ins ← pairs.foldlM
    (fun (ins : Instance) kv => do
      let v := pctDecode kv.2
      if !isValidUtf8 v then throw DecodeErr.badUtf8
      if kv.1 == strB "zone" then pure { ins with zone := v }
      else if kv.1 == strB "env" then pure { ins with env := v }
      else if kv.1 == strB "hostname" then pure { ins with env := v }
      else if kv.1 == strB "addrs" then pure { ins with addrs := ins.addrs ++ [v] }
      else if kv.1 == strB "version" then pure { ins with version := v }
      else if kv.1 == strB "metadata" then
        match jsonParseMeta v with
        | some m => pure { ins with metadata := m }
        | none => throw DecodeErr.badJson
      else pure ins)
    Instance.defaultIns
  if !isValidUtf8 key then throw DecodeErr.badUtf8
  pure { ins with appid := key }

/-- Whether `pat` is an initial segment of `l`. -/
def hasPre : List Nat → List Nat → Bool
  | [], _ => true
  | _ :: _, [] => false
  | p :: ps, b :: bs => p == b && hasPre ps bs

/-- Whether `pat` occurs contiguously anywhere in `l`. -/
def containsSeg (pat : List Nat) : List Nat → Bool
  | [] => hasPre pat []
  | b :: rest => hasPre pat (b :: rest) || containsSeg pat rest

/-! ## Watch events and the consumer-side mirror (zk_watcher.rs) -/

/-- `Event` (watcher.rs:4-8): a peer appeared or disappeared. -/
inductive WEvent where
  | create (ins : Instance)
  | delete (ins : Instance)
deriving Repr, DecidableEq

/-- The instance carried by an event. -/
def eventIns : WEvent → Instance
  | .create i => i
  | .delete i => i

/-- Whether an event is a `Create`. -/
def isCreateEv : WEvent → Bool
  | .create _ => true
  | .delete _ => false

/-- Membership in the consumer-side mirror (`HashSet<Arc<Instance>>`,
zk_watcher.rs:27): `contains` decides by the derived equality. -/
def memberMirror (m : List Instance) (x : Instance) : Bool :=
  m.any (fun j => instEq j x)

/-- The filtering loop of `ZkWatcher::poll_next` (zk_watcher.rs:90-118)
over a whole incoming event sequence: a `Create` is forwarded only when
its instance is absent from the mirror (and is then inserted); a `Delete`
is forwarded only when present (and is then removed); everything else is
dropped (the source returns `Poll::Pending` and re-wakes). -/
def processEvents (m : List Instance) : List WEvent → List WEvent
  | [] => []
  | e :: rest =>
    match e with
    | .create i =>
      if memberMirror m i then processEvents m rest
      else WEvent.create i :: processEvents (i :: m) rest
    | .delete i =>
      if memberMirror m i then
        WEvent.delete i :: processEvents (m.eraseP (fun j => instEq j i)) rest
      else processEvents m rest

/-- Strict alternation of an event list: the next event must be a `Create`
exactly when the flag is true, and the flag flips after each event. -/
def altFrom : Bool → List WEvent → Bool
  | _, [] => true
  | b, e :: rest => (isCreateEv e == b) && altFrom (!b) rest

/-- Invariant of the consumer mirror: no two stored instances are equal. -/
def mirrorInv (m : List Instance) : Prop :=
  m.Pairwise (fun a b => instEq a b = false)

/-! ## The children-watch handler (zk_watcher.rs:39-72 and 136-181)

The handler is generic in the decoder (the watcher type is parametrised by
`DC: Decoder`), so the embedding takes `decode` as an argument, together
with the coordinator client's responses: `children p` is the result of
`get_children_w(p, …)` and `existsRes p` the result of `exists_w(p, …)`.
Each client call is recorded, with the path it watches. -/

/-- The coordinator watch event delivered to a handler (`WatchedEvent`). -/
inductive ZkEventType where
  | nodeCreated
  | nodeDeleted
  | nodeChildrenChanged
  | other
deriving Repr, DecidableEq

structure ZkWatchedEvent where
  path : Option (List Nat)
  eventType : ZkEventType
deriving Repr, DecidableEq

/-- An error from the coordinator client. -/
inductive ZkErr where
  | nodeExists
  | connLoss
deriving Repr, DecidableEq

/-- A watch installed through a client call: the children watch of
`get_children_w`, or the per-instance watch of `exists_w`. -/
inductive WatchKind where
  | childrenWatch
  | existsWatch (ins : Instance)
deriving Repr, DecidableEq

/-- The per-child loop shared by `ZkWatcher::new` (zk_watcher.rs:51-71) and
`ZkInstanceWatchHandler::handle` (zk_watcher.rs:156-179): for each raw
child name, decode it (a failure is logged and the child skipped), send
`Create`, install `exists_w` on `watchPath` — the same path the children
were fetched from — and send an immediate `Delete` when that existence
check reports the node absent (`Ok(None)`). -/
def childLoop (decode : List Nat → Except DecodeErr Instance)
    (existsRes : List Nat → Except ZkErr (Option Unit))
    (watchPath : List Nat) (names : List (List Nat)) :
    List WEvent × List (List Nat × WatchKind) :=
  names.foldl
    (fun acc name =>
      match decode name with
      | .error _ => acc
      | .ok ins =>
        let evs := acc.1 ++ [WEvent.create ins]
        let calls := acc.2 ++ [(watchPath, WatchKind.existsWatch ins)]
        match existsRes watchPath with
        | .ok none => (evs ++ [WEvent.delete ins], calls)
        | _ => (evs, calls))
    ([], [])

/-- `ZkInstanceWatchHandler::handle` (zk_watcher.rs:136-181): on a watch
event with a path, re-fetch the children of that path (substituting an
empty list on error, `unwrap_or(vec![])`), re-install the children watch,
and run the per-child loop.  Returns the events posted to the channel and
the client watch calls made, in order. -/
def zkHandle (decode : List Nat → Except DecodeErr Instance)
    (children : List Nat → Except ZkErr (List (List Nat)))
    (existsRes : List Nat → Except ZkErr (Option Unit))
    (we : ZkWatchedEvent) : List WEvent × List (List Nat × WatchKind) :=
  match we.path with
  | none => ([], [])
  | some path =>
    let names := (children path).toOption.getD []
    let r := childLoop decode existsRes path names
    (r.1, (path, WatchKind.childrenWatch) :: r.2)

/-- The bootstrap of `ZkWatcher::new` (zk_watcher.rs:39-72): fetch the
children of `appid` with a children watch (empty on error), then run the
same per-child loop, installing each `exists_w` on `appid`. -/
def watcherInit (decode : List Nat → Except DecodeErr Instance)
    (children : List Nat → Except ZkErr (List (List Nat)))
    (existsRes : List Nat → Except ZkErr (Option Unit))
    (appid : List Nat) : List WEvent × List (List Nat × WatchKind) :=
  let names := (children appid).toOption.getD []
  let r := childLoop decode existsRes appid names
  (r.1, (appid, WatchKind.childrenWatch) :: r.2)

/-! ## The registration engine (zk.rs:88-138, 233-246)

The coordination tree is modelled as an association list from paths to
creation modes, and the shared `persistent_exist_node_path` cache as a
list of paths; `exists` is presence in the tree, `create` fails exactly
when the path is already present (the contract of `CoordClient.create`),
and a healthy client is assumed (client transport errors are not
modelled). -/

/-- Node creation mode (`CreateMode::Ephemeral` / `Persistent`). -/
inductive Mode where
  | ephemeral
  | persistent
deriving Repr, DecidableEq

/-- Coordination-tree state plus the registry's shared exists-cache. -/
structure ZkSt where
  tree : List (List Nat × Mode)
  cache : List (List Nat)
deriving Repr, DecidableEq

/-- `ZkRegError` (zk.rs:151-158), restricted to the variants the embedded
operations can produce. -/
inductive ZkRegError where
  | encode
  | decode
  | createPath (e : ZkErr)
  | deletePath (e : ZkErr)
deriving Repr, DecidableEq

/-- `str::rfind(c)`: index of the last occurrence of a byte. -/
def lastIdxOf (b : Nat) : List Nat → Option Nat
  | [] => none
  | x :: xs =>
    match lastIdxOf b xs with
    | some i => some (i + 1)
    | none => if x == b then some 0 else none

/-- The leaf step of `create_path` (zk.rs:121-137): `client.create` with
empty payload — failing with `NodeExists` when the path is present —
followed by inserting the created path into the cache. -/
def createLeaf (path : List Nat) (dynamic : Bool) (s : ZkSt) :
    Except ZkRegError ZkSt :=
  if (List.lookup path s.tree).isSome then .error (.createPath .nodeExists)
  else
    .ok { tree := (path, if dynamic then Mode.ephemeral else Mode.persistent) :: s.tree,
          cache := s.cache.insert path }

/-- The `exists`-observes-present step of `create_path` (zk.rs:98-107,
run only when `!dynamic`): when the node is present in the tree, its path
is inserted into the cache; the state is otherwise unchanged.  The source
then falls through to the create in both cases. -/
def existsCacheStep (path : List Nat) (dynamic : Bool) (s : ZkSt) : ZkSt :=
  if ¬dynamic ∧ (List.lookup path s.tree).isSome
  then { s with cache := s.cache.insert path } else s

/-- `create_path` (zk.rs:88-138).  For a non-dynamic creation the cache is
consulted first (returning `Ok` on a hit) and then the `exists` step runs;
the recursion ensures the prefix before the last `/` (byte 47) when that
slash is not at position 0, always non-dynamic, before the leaf create. -/
def create_path (path : List Nat) (dynamic : Bool) (s : ZkSt) :
    Except ZkRegError ZkSt :=
  if ¬dynamic ∧ path ∈ s.cache then .ok s
  else
    match h : lastIdxOf 47 path with
    | some pos =>
      if 0 < pos then
        match create_path (path.take pos) false (existsCacheStep path dynamic s) with
        | .error e => .error e
        | .ok s2 => createLeaf path dynamic s2
      else createLeaf path dynamic (existsCacheStep path dynamic s)
    | none => createLeaf path dynamic (existsCacheStep path dynamic s)
termination_by path.length
decreasing_by
  simp only [List.length_take]
  have hlt : pos < path.length := by
    clear * - h
    induction path generalizing pos with
    | nil => simp [lastIdxOf] at h
    | cons x xs ih =>
      simp only [lastIdxOf] at h
      cases hxs : lastIdxOf 47 xs with
      | some i =>
        rw [hxs] at h
        have h2 : i + 1 = pos := by simpa using h
        have hi := ih i hxs
        simp only [List.length_cons]
        omega
      | none =>
        rw [hxs] at h
        have h2 : (if x == 47 then some 0 else none : Option Nat) = some pos := by
          simpa using h
        split at h2
        · have h3 : (0 : Nat) = pos := by simpa using h2
          simp only [List.length_cons]
          omega
        · simp at h2
  omega

/-- The proper ancestors of a path visited by `create_path`'s recursion:
the prefix before the last slash when that slash is not at position 0,
then its own ancestors, and so on. -/
def properAncestors (p : List Nat) : List (List Nat) :=
  match h : lastIdxOf 47 p with
  | some pos =>
    if 0 < pos then p.take pos :: properAncestors (p.take pos) else []
  | none => []
termination_by p.length
decreasing_by
  simp only [List.length_take]
  have hlt : pos < p.length := by
    clear * - h
    induction p generalizing pos with
    | nil => simp [lastIdxOf] at h
    | cons x xs ih =>
      simp only [lastIdxOf] at h
      cases hxs : lastIdxOf 47 xs with
      | some i =>
        rw [hxs] at h
        have h2 : i + 1 = pos := by simpa using h
        have hi := ih i hxs
        simp only [List.length_cons]
        omega
      | none =>
        rw [hxs] at h
        have h2 : (if x == 47 then some 0 else none : Option Nat) = some pos := by
          simpa using h
        split at h2
        · have h3 : (0 : Nat) = pos := by simpa using h2
          simp only [List.length_cons]
          omega
        · simp at h2
  omega

/-- The `dynamic` flag computed by `Zk::register` (zk.rs:234-238):
`metadata.get("dynamic").map(|v| v == "true").unwrap_or(true)`. -/
def registerDynamic (ins : Instance) : Bool :=
  ((List.lookup (strB "dynamic") ins.metadata).map (fun v => v == strB "true")).getD true

/-- `Zk::register` followed by the blocking body of `RegFut::new`
(zk.rs:70-83, 233-246): encode the instance (the leaf is the value
encoding; `String::from_utf8` of it must succeed), build
`appid + "/" + leaf`, and run `create_path` with the `dynamic` flag. -/
def registerIns (ins : Instance) (s : ZkSt) : Except ZkRegError ZkSt :=
  if isValidUtf8 (valueEncode ins) then
    create_path (ins.appid ++ 47 :: valueEncode ins) (registerDynamic ins) s
  else .error .encode

/-! ## Concrete inputs used by the claim theorems -/

/-- An instance with distinct, non-empty `env` and `hostname`. -/
def c1Ins : Instance :=
  { zone := strB "z", env := strB "e", appid := strB "/app", hostname := strB "h",
    addrs := [strB "a1"], version := strB "1", metadata := [(strB "w", strB "10")] }

/-- What the default decoder actually returns for `c1Ins`'s encoding:
`env` holds the hostname value and `hostname` is left empty. -/
def c1Dec : Instance := { c1Ins with env := strB "h", hostname := [] }

/-- Two instances agreeing on `appid`, `version`, `env`, `addrs` (and
everything else) but differing in `hostname`. -/
def c2L : Instance :=
  { zone := strB "sh1", env := strB "test", appid := strB "/app",
    hostname := strB "host-one", addrs := [strB "http://10.0.0.1:80"],
    version := strB "1", metadata := [(strB "weight", strB "10")] }

def c2R : Instance := { c2L with hostname := strB "host-two" }

/-- Two instances equal as records up to metadata entry order. -/
def c2wA : Instance :=
  { c2L with metadata := [(strB "a", strB "1"), (strB "b", strB "2")] }

def c2wB : Instance :=
  { c2L with metadata := [(strB "b", strB "2"), (strB "a", strB "1")] }

/-- The instance of the repository's own encoder unit test
(codec.rs:170-189), with the string-valued metadata of tests/zk.rs. -/
def c3Ins : Instance :=
  { zone := strB "sh1", env := strB "test", appid := strB "provider",
    hostname := strB "myhostname",
    addrs := [strB "http://172.1.1.1:8000", strB "grpc://172.1.1.1:9999"],
    version := strB "111", metadata := [(strB "weight", strB "10")] }

/-- A child instance whose `env` and `hostname` are empty, so that the
default decoder recovers it exactly from its encoding under key "/app". -/
def c45Child : Instance :=
  { zone := strB "z", env := [], appid := strB "/app", hostname := [],
    addrs := [strB "http://10.0.0.2:80"], version := strB "2", metadata := [] }

/-- The decoder the concrete watcher scenarios use: the default codec's
decoder with the watched appid as the key. -/
def c45Decode (v : List Nat) : Except DecodeErr Instance :=
  decodeDefault (strB "/app") v

/-- An instance whose `metadata["dynamic"]` is `"yes"` — neither `"true"`
nor `"false"`. -/
def c6Ins : Instance :=
  { zone := [], env := [], appid := [47, 97], hostname := [], addrs := [],
    version := [], metadata := [(strB "dynamic", strB "yes")] }

/-! ## Lemmas about metadata maps and the derived equality -/

theorem lookup_some_mem {k v : List Nat} :
    ∀ {m : List (List Nat × List Nat)}, List.lookup k m = some v → (k, v) ∈ m := by
  intro m
  induction m with
  | nil => intro h; simp [List.lookup] at h
  | cons p t ih =>
    obtain ⟨pk, pv⟩ := p
    intro h
    simp only [List.lookup] at h
    cases hkk : (k == pk) with
    | true =>
      rw [hkk] at h
      simp only [Option.some.injEq] at h
      exact (eq_of_beq hkk) ▸ h ▸ List.mem_cons_self _ _
    | false =>
      rw [hkk] at h
      exact List.mem_cons_of_mem _ (ih h)

theorem metaEqv_iff {m1 m2 : List (List Nat × List Nat)} :
    metaEqv m1 m2 = true ↔ ∀ k, List.lookup k m1 = List.lookup k m2 := by
  constructor
  · intro h k
    rw [metaEqv, List.all_eq_true] at h
    cases h1 : List.lookup k m1 with
    | some v =>
      have hm : (k, v) ∈ m1 ++ m2 := List.mem_append_left _ (lookup_some_mem h1)
      have h2 := eq_of_beq (h _ hm)
      rw [← h1]
      exact h2
    | none =>
      cases h2 : List.lookup k m2 with
      | some w =>
        have hm : (k, w) ∈ m1 ++ m2 := List.mem_append_right _ (lookup_some_mem h2)
        have h3 : List.lookup k m1 = List.lookup k m2 := eq_of_beq (h _ hm)
        rw [h1, h2] at h3
        exact h3
      | none => rfl
  · intro h
    rw [metaEqv, List.all_eq_true]
    intro kv _
    exact beq_iff_eq.mpr (h kv.1)

theorem instEq_iff {a b : Instance} :
    instEq a b = true ↔
      a.zone = b.zone ∧ a.env = b.env ∧ a.appid = b.appid ∧
      a.hostname = b.hostname ∧ a.addrs = b.addrs ∧ a.version = b.version ∧
      ∀ k, List.lookup k a.metadata = List.lookup k b.metadata := by
  rw [instEq]
  simp only [Bool.and_eq_true, beq_iff_eq, metaEqv_iff]
  tauto

theorem instEq_refl (a : Instance) : instEq a a = true :=
  instEq_iff.mpr ⟨rfl, rfl, rfl, rfl, rfl, rfl, fun _ => rfl⟩

theorem instEq_symm {a b : Instance} (h : instEq a b = true) : instEq b a = true := by
  rw [instEq_iff] at h ⊢
  obtain ⟨h1, h2, h3, h4, h5, h6, h7⟩ := h
  exact ⟨h1.symm, h2.symm, h3.symm, h4.symm, h5.symm, h6.symm, fun k => (h7 k).symm⟩

theorem instEq_trans {a b c : Instance} (h1 : instEq a b = true)
    (h2 : instEq b c = true) : instEq a c = true := by
  rw [instEq_iff] at h1 h2 ⊢
  obtain ⟨a1, a2, a3, a4, a5, a6, a7⟩ := h1
  obtain ⟨b1, b2, b3, b4, b5, b6, b7⟩ := h2
  exact ⟨a1.trans b1, a2.trans b2, a3.trans b3, a4.trans b4, a5.trans b5,
    a6.trans b6, fun k => (a7 k).trans (b7 k)⟩

theorem memberMirror_nil (x : Instance) : memberMirror [] x = false := rfl

theorem memberMirror_cons (j : Instance) (t : List Instance) (x : Instance) :
    memberMirror (j :: t) x = (instEq j x || memberMirror t x) := by
  simp [memberMirror]

theorem memberMirror_congr {x y : Instance} (h : instEq x y = true)
    (m : List Instance) : memberMirror m x = memberMirror m y := by
  induction m with
  | nil => rfl
  | cons j t ih =>
    rw [memberMirror_cons, memberMirror_cons, ih]
    cases hjx : instEq j x with
    | true => rw [instEq_trans hjx h]
    | false =>
      cases hjy : instEq j y with
      | true => rw [← hjx, instEq_trans hjy (instEq_symm h)]
      | false => rfl

theorem mirrorInv_nil : mirrorInv [] := List.Pairwise.nil

theorem mirrorInv_cons {m : List Instance} {i : Instance} (inv : mirrorInv m)
    (hmem : memberMirror m i = false) : mirrorInv (i :: m) := by
  rw [mirrorInv, List.pairwise_cons]
  refine ⟨fun j hj => ?_, inv⟩
  cases hij : instEq i j with
  | true =>
    exfalso
    have hji : instEq j i = true := instEq_symm hij
    have : memberMirror m i = true := List.any_eq_true.mpr ⟨j, hj, hji⟩
    rw [this] at hmem
    simp at hmem
  | false => rfl

theorem mirrorInv_eraseP {m : List Instance} {y : Instance} (inv : mirrorInv m) :
    mirrorInv (m.eraseP (fun j => instEq j y)) :=
  List.Pairwise.sublist (List.eraseP_sublist _) inv

theorem memberMirror_eraseP_self {m : List Instance} {y : Instance}
    (inv : mirrorInv m) :
    memberMirror (m.eraseP (fun j => instEq j y)) y = false := by
  induction m with
  | nil => rfl
  | cons j t ih =>
    rw [mirrorInv, List.pairwise_cons] at inv
    obtain ⟨hj, ht⟩ := inv
    rw [List.eraseP_cons]
    cases hjy : instEq j y with
    | true =>
      simp only [cond_true]
      simp only [memberMirror]
      rw [List.any_eq_false]
      intro r hr
      cases hry : instEq r y with
      | true =>
        have : instEq j r = true :=
          instEq_trans hjy (instEq_symm hry)
        rw [hj r hr] at this
        exact absurd this (by simp)
      | false => simp [hry]
    | false =>
      simp only [cond_false]
      rw [memberMirror_cons, hjy, ih ht]
      rfl

theorem memberMirror_eraseP_ne {m : List Instance} {x y : Instance}
    (h : instEq y x = false) :
    memberMirror (m.eraseP (fun j => instEq j y)) x = memberMirror m x := by
  induction m with
  | nil => rfl
  | cons j t ih =>
    rw [List.eraseP_cons]
    cases hjy : instEq j y with
    | true =>
      simp only [cond_true]
      have hjx : instEq j x = false := by
        cases hjx : instEq j x with
        | true =>
          have h2 : instEq y x = true := instEq_trans (instEq_symm hjy) hjx
          rw [h] at h2
          simp at h2
        | false => rfl
      rw [memberMirror_cons, hjx, Bool.false_or]
    | false =>
      simp only [cond_false]
      rw [memberMirror_cons, memberMirror_cons, ih]

theorem eventIns_create (i : Instance) : eventIns (WEvent.create i) = i := rfl

theorem eventIns_delete (i : Instance) : eventIns (WEvent.delete i) = i := rfl

theorem processEvents_sublist : ∀ (evs : List WEvent) (m : List Instance),
    List.Sublist (processEvents m evs) evs := by
  intro evs
  induction evs with
  | nil => intro m; simp [processEvents]
  | cons e rest ih =>
    intro m
    cases e with
    | create i =>
      rw [processEvents]
      cases hmem : memberMirror m i with
      | true =>
        simp only [hmem, if_true]
        exact (ih m).cons _
      | false =>
        simp only [hmem, Bool.false_eq_true, if_false]
        exact (ih (i :: m)).cons₂ _
    | delete i =>
      rw [processEvents]
      cases hmem : memberMirror m i with
      | true =>
        simp only [hmem, if_true]
        exact (ih _).cons₂ _
      | false =>
        simp only [hmem, Bool.false_eq_true, if_false]
        exact (ih m).cons _

theorem altFrom_processEvents :
    ∀ (evs : List WEvent) (m : List Instance), mirrorInv m → ∀ x : Instance,
      altFrom (!memberMirror m x)
        ((processEvents m evs).filter (fun e => instEq (eventIns e) x)) = true := by
  intro evs
  induction evs with
  | nil => intro m _ x; rfl
  | cons e rest ih =>
    intro m inv x
    cases e with
    | create i =>
      rw [processEvents]
      cases hmem : memberMirror m i with
      | true =>
        simp only [hmem, if_true]
        exact ih m inv x
      | false =>
        simp only [hmem, Bool.false_eq_true, if_false]
        have inv2 := mirrorInv_cons inv hmem
        rw [List.filter_cons]
        cases hrel : instEq i x with
        | true =>
          have hmx : memberMirror m x = false := by
            rw [← memberMirror_congr hrel m]
            exact hmem
          have hmix : memberMirror (i :: m) x = true := by
            rw [memberMirror_cons, hrel]
            rfl
          simp only [eventIns_create, hrel, if_true]
          rw [altFrom, hmx]
          have htail := ih (i :: m) inv2 x
          rw [hmix] at htail
          simpa using ⟨rfl, htail⟩
        | false =>
          have hmx : memberMirror (i :: m) x = memberMirror m x := by
            rw [memberMirror_cons, hrel, Bool.false_or]
          simp only [eventIns_create, hrel, Bool.false_eq_true, if_false]
          have htail := ih (i :: m) inv2 x
          rw [hmx] at htail
          exact htail
    | delete i =>
      rw [processEvents]
      cases hmem : memberMirror m i with
      | false =>
        simp only [hmem, Bool.false_eq_true, if_false]
        exact ih m inv x
      | true =>
        simp only [hmem, if_true]
        have inv2 : mirrorInv (m.eraseP (fun j => instEq j i)) := mirrorInv_eraseP inv
        rw [List.filter_cons]
        cases hrel : instEq i x with
        | true =>
          have hmx : memberMirror m x = true := by
            rw [← memberMirror_congr hrel m]
            exact hmem
          have hm2 : memberMirror (m.eraseP (fun j => instEq j i)) x = false := by
            rw [← memberMirror_congr hrel _]
            exact memberMirror_eraseP_self inv
          simp only [eventIns_delete, hrel, if_true]
          rw [altFrom, hmx]
          have htail := ih _ inv2 x
          rw [hm2] at htail
          simpa using ⟨rfl, htail⟩
        | false =>
          have hmx : memberMirror (m.eraseP (fun j => instEq j i)) x = memberMirror m x :=
            memberMirror_eraseP_ne hrel
          simp only [eventIns_delete, hrel, Bool.false_eq_true, if_false]
          have htail := ih _ inv2 x
          rw [hmx] at htail
          exact htail

/-- C1: the claimed codec round-trip `decode(key_encode(x), value_encode(x)) == x`
fails on the code.  At the concrete instance `c1Ins` (hostname `"h"`,
env `"e"`), decoding the default codec's encoding succeeds but returns
`c1Dec`, whose `env` field holds the hostname value and whose `hostname`
field is empty — the decoder's `"hostname"` arm (codec.rs:143) assigns to
`env` — so the decoded instance differs from the original. -/
theorem C1_roundtrip_eval :
    decodeDefault (keyEncode c1Ins) (valueEncode c1Ins) = Except.ok c1Dec ∧
    c1Dec.env = c1Ins.hostname ∧ c1Dec.hostname = [] ∧ c1Dec ≠ c1Ins :=
  ⟨rfl, rfl, rfl, by decide⟩

/-- C2: counterexample to the claim that the equality relation on
`Instance` treats two instances agreeing on (appid, version, env, addrs)
as the same member.  `c2L` and `c2R` agree on those four fields (their
hash inputs coincide) yet the derived equality distinguishes them,
because their hostnames differ. -/
theorem C2_counterexample :
    hashFields c2L = hashFields c2R ∧ instEq c2L c2R = false ∧
    c2L.hostname ≠ c2R.hostname :=
  ⟨rfl, by decide, by decide⟩

/-- C2 (amended): the hash function covers exactly the tuple
(appid, version, env, addrs), but the equality relation is the derived
structural one over all seven fields (metadata compared as a map), so
hostname, zone and metadata do participate in equality. -/
theorem C2_amended :
    (∀ a b : Instance, hashFields a = hashFields b ↔
        a.appid = b.appid ∧ a.version = b.version ∧ a.env = b.env ∧
        a.addrs = b.addrs) ∧
    (∀ a b : Instance, instEq a b = true ↔
        a.zone = b.zone ∧ a.env = b.env ∧ a.appid = b.appid ∧
        a.hostname = b.hostname ∧ a.addrs = b.addrs ∧ a.version = b.version ∧
        ∀ k, List.lookup k a.metadata = List.lookup k b.metadata) :=
  ⟨fun a b => by simp [hashFields, Prod.ext_iff], fun a b => instEq_iff⟩

/-- C2 witness: applying the amended characterisations at concrete
instances whose metadata maps are equal but listed in different orders. -/
theorem C2_amended_witness :
    hashFields c2wA = hashFields c2wB ∧ instEq c2wA c2wB = true := by
  constructor
  · exact (C2_amended.1 c2wA c2wB).mpr ⟨rfl, rfl, rfl, rfl⟩
  · refine (C2_amended.2 c2wA c2wB).mpr ⟨rfl, rfl, rfl, rfl, rfl, rfl, fun k => ?_⟩
    by_cases h1 : (k == strB "a") = true
    · by_cases h2 : (k == strB "b") = true
      · exfalso
        have ha := eq_of_beq h1
        have hb := eq_of_beq h2
        rw [ha] at hb
        exact absurd hb (by decide)
      · simp [c2wA, c2wB, c2L, List.lookup, h1, h2]
    · by_cases h2 : (k == strB "b") = true
      · simp [c2wA, c2wB, c2L, List.lookup, h1, h2]
      · simp [c2wA, c2wB, c2L, List.lookup, h1, h2]

set_option maxRecDepth 200000 in
/-- C3: counterexample to the claimed encoded field order.  At the
instance of the repository's own encoder unit test, the default value
encoder produces exactly the pinned byte string of codec.rs:180 — which
goes `zone=`, `&env=`, `&hostname=`, … — and no `&appid=` pair occurs
anywhere in the output, contradicting the claim that an `&appid=` pair
appears between `env` and `hostname`. -/
theorem C3_counterexample :
    valueEncode c3Ins = strB "zone=sh1&env=test&hostname=myhostname&addrs=http%3A%2F%2F172.1.1.1%3A8000&addrs=grpc%3A%2F%2F172.1.1.1%3A9999&version=111&metadata=%7B%22weight%22%3A%2210%22%7D" ∧
    containsSeg (strB "&appid=") (valueEncode c3Ins) = false := by
  constructor
  · rfl
  · rfl

/-- C3 (amended): for every Instance the default encoder's output is the
fixed-order query string `zone=`, `&env=`, `&hostname=`, one `&addrs=`
pair per address in input order, `&version=`, `&metadata=` — with no
`appid` pair in the leaf value; the appid travels through the key encoder
instead (`keyEncode`). -/
theorem C3_amended (ins : Instance) :
    valueEncode ins =
      strB "zone=" ++ pctEncode ins.zone ++
      strB "&env=" ++ pctEncode ins.env ++
      strB "&hostname=" ++ pctEncode ins.hostname ++
      ins.addrs.flatMap (fun addr => strB "&addrs=" ++ pctEncode addr) ++
      strB "&version=" ++ pctEncode ins.version ++
      strB "&metadata=" ++ pctEncode (jsonSerializeMeta ins.metadata) ∧
    keyEncode ins = ins.appid :=
  ⟨rfl, rfl⟩

/-- C9: the consumer-side mirror of `ZkWatcher::poll_next` forwards a
subsequence of the incoming events (nothing is invented, drops only), and
for every instance identity the forwarded events strictly alternate
starting with a `Create` — so the consumer never sees a duplicate
`Create` or an unmatched `Delete`, observing each membership transition
exactly once. -/
theorem C9_poll_next_dedup (evs : List WEvent) :
    List.Sublist (processEvents [] evs) evs ∧
    ∀ x : Instance,
      altFrom true ((processEvents [] evs).filter (fun e => instEq (eventIns e) x)) = true := by
  refine ⟨processEvents_sublist evs [], fun x => ?_⟩
  exact altFrom_processEvents evs [] mirrorInv_nil x

/-! ## Lemmas about the registration engine -/

theorem createLeaf_ok {p : List Nat} {d : Bool} {s t : ZkSt}
    (h : createLeaf p d s = .ok t) :
    List.lookup p s.tree = none ∧
    t = ⟨(p, if d then Mode.ephemeral else Mode.persistent) :: s.tree,
         s.cache.insert p⟩ := by
  rw [createLeaf] at h
  split at h
  · exact absurd h (by simp)
  · next hns =>
    cases hl : List.lookup p s.tree with
    | some v => rw [hl] at hns; simp at hns
    | none =>
      refine ⟨rfl, ?_⟩
      injection h with h2
      exact h2.symm

theorem existsCacheStep_tree (p : List Nat) (d : Bool) (s : ZkSt) :
    (existsCacheStep p d s).tree = s.tree := by
  rw [existsCacheStep]
  split <;> rfl

theorem mem_cache_existsCacheStep {q : List Nat} {s : ZkSt} (p : List Nat)
    (d : Bool) (h : q ∈ s.cache) : q ∈ (existsCacheStep p d s).cache := by
  rw [existsCacheStep]
  split
  · exact List.mem_insert_iff.mpr (Or.inr h)
  · exact h

theorem existsCacheStep_dyn (p : List Nat) (s : ZkSt) :
    existsCacheStep p true s = s := by
  rw [existsCacheStep]
  split
  · next hc => exact absurd hc (by simp)
  · rfl

theorem create_path_ok_cache {p : List Nat} {d : Bool} {s t : ZkSt}
    (h : create_path p d s = .ok t) : p ∈ t.cache := by
  rw [create_path] at h
  split at h
  · next hc =>
    injection h with h2
    rw [← h2]
    exact hc.2
  · split at h
    · split at h
      · cases hrec : create_path _ false (existsCacheStep p d s) with
        | error e => rw [hrec] at h; simp at h
        | ok s2 =>
          rw [hrec] at h
          obtain ⟨-, hout⟩ := createLeaf_ok h
          rw [hout]
          exact List.mem_insert_self _ _
      · obtain ⟨-, hout⟩ := createLeaf_ok h
        rw [hout]
        exact List.mem_insert_self _ _
    · obtain ⟨-, hout⟩ := createLeaf_ok h
      rw [hout]
      exact List.mem_insert_self _ _

theorem lastIdxOf_lt_length {b : Nat} : ∀ {l : List Nat} {i : Nat},
    lastIdxOf b l = some i → i < l.length := by
  intro l
  induction l with
  | nil => intro i h; simp [lastIdxOf] at h
  | cons x xs ih =>
    intro i h
    simp only [lastIdxOf] at h
    cases hxs : lastIdxOf b xs with
    | some j =>
      rw [hxs] at h
      have h2 : j + 1 = i := by simpa using h
      have h3 := ih hxs
      simp only [List.length_cons]
      omega
    | none =>
      rw [hxs] at h
      have h2 : (if x == b then some 0 else none : Option Nat) = some i := by
        simpa using h
      split at h2
      · have h3 : (0 : Nat) = i := by simpa using h2
        simp only [List.length_cons]
        omega
      · simp at h2


theorem beq_false_of_length_ne {r q : List Nat} (h : q.length < r.length) :
    (r == q) = false := by
  cases hrq : (r == q) with
  | true =>
    have : r = q := eq_of_beq hrq
    rw [this] at h
    omega
  | false => rfl

theorem create_path_tree_longer_aux (n : Nat) :
    ∀ (q : List Nat), q.length ≤ n → ∀ (d : Bool) (s t : ZkSt) (r : List Nat),
      create_path q d s = .ok t → q.length < r.length →
      List.lookup r t.tree = List.lookup r s.tree := by
  induction n with
  | zero =>
    intro q hq d s t r h hlen
    rw [create_path] at h
    split at h
    · injection h with h2; rw [← h2]
    · split at h
      · next pos heq =>
        -- q.length = 0 means q = [], but lastIdxOf on [] is none
        have : q = [] := List.length_eq_zero.mp (Nat.le_zero.mp hq)
        rw [this] at heq
        simp [lastIdxOf] at heq
      · obtain ⟨-, hout⟩ := createLeaf_ok h
        rw [hout]
        simp only []
        rw [List.lookup_cons]
        rw [beq_false_of_length_ne hlen]
        rw [existsCacheStep_tree]
  | succ n ih =>
    intro q hq d s t r h hlen
    rw [create_path] at h
    split at h
    · injection h with h2; rw [← h2]
    · split at h
      · next pos heq =>
        split at h
        · next hpos =>
          cases hrec : create_path (q.take pos) false (existsCacheStep q d s) with
          | error e => rw [hrec] at h; simp at h
          | ok s2 =>
            rw [hrec] at h
            obtain ⟨-, hout⟩ := createLeaf_ok h
            rw [hout]
            simp only []
            rw [List.lookup_cons, beq_false_of_length_ne hlen]
            have htake : (q.take pos).length ≤ n := by
              simp only [List.length_take]
              have := lastIdxOf_lt_length heq
              omega
            have hrecl := ih (q.take pos) htake false _ s2 r hrec
              (by simp only [List.length_take]; omega)
            rw [hrecl, existsCacheStep_tree]
        · obtain ⟨-, hout⟩ := createLeaf_ok h
          rw [hout]
          simp only []
          rw [List.lookup_cons, beq_false_of_length_ne hlen, existsCacheStep_tree]
      · obtain ⟨-, hout⟩ := createLeaf_ok h
        rw [hout]
        simp only []
        rw [List.lookup_cons, beq_false_of_length_ne hlen, existsCacheStep_tree]

theorem create_path_cached_short {p : List Nat} {s : ZkSt} (h : p ∈ s.cache) :
    create_path p false s = .ok s := by
  rw [create_path]
  rw [if_pos ⟨by simp, h⟩]

theorem create_path_tree_longer {q : List Nat} {d : Bool} {s t : ZkSt}
    {r : List Nat} (h : create_path q d s = .ok t) (hlen : q.length < r.length) :
    List.lookup r t.tree = List.lookup r s.tree :=
  create_path_tree_longer_aux q.length q (Nat.le_refl _) d s t r h hlen

theorem create_path_second_dyn {p : List Nat} {s t : ZkSt}
    (h : create_path p true s = .ok t) :
    create_path p true t = .error (.createPath .nodeExists) := by
  rw [create_path] at h
  rw [if_neg (by simp)] at h
  split at h
  · next pos heq =>
    split at h
    · next hpos =>
      cases hrec : create_path (p.take pos) false (existsCacheStep p true s) with
      | error e => rw [hrec] at h; simp at h
      | ok s2 =>
        rw [hrec] at h
        obtain ⟨hnone, hout⟩ := createLeaf_ok h
        have ha1 : p.take pos ∈ t.cache := by
          rw [hout]
          exact List.mem_insert_iff.mpr (Or.inr (create_path_ok_cache hrec))
        have hlk : (List.lookup p t.tree).isSome = true := by
          rw [hout]
          simp [List.lookup_cons]
        rw [create_path, if_neg (by simp)]
        split
        · next pos2 heq2 =>
          rw [heq] at heq2
          have hp2 : pos = pos2 := Option.some.inj heq2
          rw [← hp2, if_pos hpos, existsCacheStep_dyn, create_path_cached_short ha1]
          show createLeaf p true t = Except.error (ZkRegError.createPath ZkErr.nodeExists)
          rw [createLeaf, if_pos hlk]
        · next heq2 => rw [heq] at heq2; simp at heq2
    · next hpos =>
      obtain ⟨hnone, hout⟩ := createLeaf_ok h
      have hlk : (List.lookup p t.tree).isSome = true := by
        rw [hout]
        simp [List.lookup_cons]
      rw [create_path, if_neg (by simp)]
      split
      · next pos2 heq2 =>
        rw [heq] at heq2
        have hp2 : pos = pos2 := Option.some.inj heq2
        rw [← hp2, if_neg hpos, createLeaf, existsCacheStep_tree, if_pos hlk]
      · next heq2 => rw [heq] at heq2; simp at heq2
  · next heq =>
    obtain ⟨hnone, hout⟩ := createLeaf_ok h
    have hlk : (List.lookup p t.tree).isSome = true := by
      rw [hout]
      simp [List.lookup_cons]
    rw [create_path, if_neg (by simp)]
    split
    · next pos2 heq2 => rw [heq] at heq2; simp at heq2
    · rw [createLeaf, existsCacheStep_tree, if_pos hlk]

theorem create_path_second_persistent {p : List Nat} {s t : ZkSt}
    (h : create_path p false s = .ok t) :
    create_path p false t = .ok t :=
  create_path_cached_short (create_path_ok_cache h)

theorem existsCacheStep_of_lookup_none {p : List Nat} {d : Bool} {s : ZkSt}
    (h : List.lookup p s.tree = none) : existsCacheStep p d s = s := by
  rw [existsCacheStep]
  split
  · next hc =>
    rw [h] at hc
    simp at hc
  · rfl

theorem create_path_dyn_creates {p : List Nat} {s t : ZkSt}
    (h : create_path p true s = .ok t) :
    List.lookup p s.tree = none ∧ List.lookup p t.tree = some Mode.ephemeral := by
  rw [create_path, if_neg (by simp)] at h
  split at h
  · next pos heq =>
    split at h
    · next hpos =>
      cases hrec : create_path (p.take pos) false (existsCacheStep p true s) with
      | error e => rw [hrec] at h; simp at h
      | ok s2 =>
        rw [hrec] at h
        obtain ⟨hnone, hout⟩ := createLeaf_ok h
        have hlen : (p.take pos).length < p.length := by
          simp only [List.length_take]
          have := lastIdxOf_lt_length heq
          omega
        have hpres := create_path_tree_longer hrec hlen
        rw [existsCacheStep_tree] at hpres
        constructor
        · rw [← hpres]
          exact hnone
        · rw [hout]
          simp [List.lookup_cons]
    · next hpos =>
      obtain ⟨hnone, hout⟩ := createLeaf_ok h
      rw [existsCacheStep_tree] at hnone
      exact ⟨hnone, by rw [hout]; simp [List.lookup_cons]⟩
  · next heq =>
    obtain ⟨hnone, hout⟩ := createLeaf_ok h
    rw [existsCacheStep_tree] at hnone
    exact ⟨hnone, by rw [hout]; simp [List.lookup_cons]⟩

theorem create_path_mode {p : List Nat} {d : Bool} {s t : ZkSt}
    (h : create_path p d s = .ok t) (hnc : d = false → p ∉ s.cache) :
    List.lookup p t.tree = some (if d then Mode.ephemeral else Mode.persistent) := by
  have hcond : ¬(¬(d = true) ∧ p ∈ s.cache) := by
    intro hcon
    cases d
    · exact (hnc rfl) hcon.2
    · exact hcon.1 rfl
  rw [create_path, if_neg hcond] at h
  split at h
  · next pos heq =>
    split at h
    · next hpos =>
      cases hrec : create_path (p.take pos) false (existsCacheStep p d s) with
      | error e => rw [hrec] at h; simp at h
      | ok s2 =>
        rw [hrec] at h
        obtain ⟨-, hout⟩ := createLeaf_ok h
        rw [hout]
        simp [List.lookup_cons]
    · obtain ⟨-, hout⟩ := createLeaf_ok h
      rw [hout]
      simp [List.lookup_cons]
  · obtain ⟨-, hout⟩ := createLeaf_ok h
    rw [hout]
    simp [List.lookup_cons]

theorem properAncestors_of_none {p : List Nat} (heq : lastIdxOf 47 p = none) :
    properAncestors p = [] := by
  rw [properAncestors]
  split
  · next pos2 heq2 => rw [heq] at heq2; simp at heq2
  · rfl

theorem properAncestors_of_zero {p : List Nat} {pos : Nat}
    (heq : lastIdxOf 47 p = some pos) (hpos : ¬0 < pos) :
    properAncestors p = [] := by
  rw [properAncestors]
  split
  · next pos2 heq2 =>
    rw [heq] at heq2
    have hp2 : pos = pos2 := Option.some.inj heq2
    rw [← hp2, if_neg hpos]
  · rfl

theorem properAncestors_of_pos {p : List Nat} {pos : Nat}
    (heq : lastIdxOf 47 p = some pos) (hpos : 0 < pos) :
    properAncestors p = p.take pos :: properAncestors (p.take pos) := by
  rw [properAncestors]
  split
  · next pos2 heq2 =>
    rw [heq] at heq2
    have hp2 : pos = pos2 := Option.some.inj heq2
    rw [← hp2, if_pos hpos]
  · next heq2 => rw [heq] at heq2; simp at heq2

theorem create_path_empty_cache_aux (n : Nat) :
    ∀ (p : List Nat), p.length ≤ n →
      ∀ (d : Bool) (tr : List (List Nat × Mode)) (t : ZkSt),
        create_path p d ⟨tr, []⟩ = .ok t →
        p ∈ t.cache ∧ ∀ a ∈ properAncestors p, a ∈ t.cache := by
  induction n with
  | zero =>
    intro p hp d tr t h
    have hpn : p = [] := List.length_eq_zero.mp (Nat.le_zero.mp hp)
    subst hpn
    rw [create_path, if_neg (by simp)] at h
    split at h
    · next pos heq => simp [lastIdxOf] at heq
    · next heq =>
      obtain ⟨hnone, hout⟩ := createLeaf_ok h
      rw [existsCacheStep_tree] at hnone
      rw [existsCacheStep_of_lookup_none hnone] at hout
      refine ⟨by rw [hout]; simp [List.mem_insert_iff], ?_⟩
      rw [properAncestors_of_none heq]
      intro a ha
      simp at ha
  | succ n ih =>
    intro p hp d tr t h
    rw [create_path, if_neg (by simp)] at h
    split at h
    · next pos heq =>
      split at h
      · next hpos =>
        cases hrec : create_path (p.take pos) false (existsCacheStep p d ⟨tr, []⟩) with
        | error e => rw [hrec] at h; simp at h
        | ok s2 =>
          rw [hrec] at h
          obtain ⟨hnone, hout⟩ := createLeaf_ok h
          have hlen : (p.take pos).length < p.length := by
            simp only [List.length_take]
            have := lastIdxOf_lt_length heq
            omega
          have hpres := create_path_tree_longer hrec hlen
          rw [existsCacheStep_tree] at hpres
          have hlkS : List.lookup p tr = none := by
            have h2 := hpres.symm.trans hnone
            exact h2
          have hstep : existsCacheStep p d ⟨tr, []⟩ = ⟨tr, []⟩ :=
            existsCacheStep_of_lookup_none hlkS
          rw [hstep] at hrec
          have htake : (p.take pos).length ≤ n := by
            simp only [List.length_take]
            have := lastIdxOf_lt_length heq
            omega
          have hih := ih (p.take pos) htake false tr s2 hrec
          constructor
          · rw [hout]
            simp [List.mem_insert_iff]
          · rw [properAncestors_of_pos heq hpos]
            intro a ha
            rw [hout]
            simp only [List.mem_insert_iff]
            rcases List.mem_cons.mp ha with h1 | h2
            · rw [h1]
              exact Or.inr hih.1
            · exact Or.inr (hih.2 a h2)
      · next hpos =>
        obtain ⟨hnone, hout⟩ := createLeaf_ok h
        rw [existsCacheStep_tree] at hnone
        rw [existsCacheStep_of_lookup_none hnone] at hout
        refine ⟨by rw [hout]; simp [List.mem_insert_iff], ?_⟩
        rw [properAncestors_of_zero heq hpos]
        intro a ha
        simp at ha
    · next heq =>
      obtain ⟨hnone, hout⟩ := createLeaf_ok h
      rw [existsCacheStep_tree] at hnone
      rw [existsCacheStep_of_lookup_none hnone] at hout
      refine ⟨by rw [hout]; simp [List.mem_insert_iff], ?_⟩
      rw [properAncestors_of_none heq]
      intro a ha
      simp at ha

theorem create_path_empty_cache {p : List Nat} {d : Bool}
    {tr : List (List Nat × Mode)} {t : ZkSt}
    (h : create_path p d ⟨tr, []⟩ = .ok t) :
    p ∈ t.cache ∧ ∀ a ∈ properAncestors p, a ∈ t.cache :=
  create_path_empty_cache_aux p.length p (Nat.le_refl _) d tr t h

/-- C4: evaluation of the children-change handler showing it computes no
set-difference against a previous snapshot.  Scenario: the watcher over
"/app" previously observed two children (`c45Child`'s encoding and one
other, since vanished); the callback re-fetches and the client now returns
only `c45Child`'s encoding.  The handler's inputs do not even include a
previous snapshot — zk_watcher.rs:136-181 keeps no mirror — and its output
is exactly one `Create` for the still-present child and no `Delete` at
all, where the claim requires one `Delete` for the vanished child and no
event for a child present in both snapshots. -/
theorem C4_handle_no_diff_eval :
    zkHandle c45Decode (fun _ => .ok [valueEncode c45Child]) (fun _ => .ok (some ()))
        ⟨some (strB "/app"), ZkEventType.nodeChildrenChanged⟩ =
      ([WEvent.create c45Child],
       [(strB "/app", WatchKind.childrenWatch),
        (strB "/app", WatchKind.existsWatch c45Child)]) := rfl

/-- C5: evaluation of the watcher bootstrap showing where the per-child
existence watch is installed.  When the child `c45Child` (leaf name
`valueEncode c45Child`) is first observed under appid "/app", the
`exists_w` call is made on "/app" itself — the parent — and not on the
child's own node path `"/app/" ++ leaf` (zk_watcher.rs:60-67 passes
`appid`, and the handler at zk_watcher.rs:167-174 passes the watched
parent `path`).  The absent-at-install result `Ok(None)` does produce the
immediate `Delete`, as the claim states; the watched path is what
diverges. -/
theorem C5_exists_watch_path_eval :
    watcherInit c45Decode (fun _ => .ok [valueEncode c45Child]) (fun _ => .ok none)
        (strB "/app") =
      ([WEvent.create c45Child, WEvent.delete c45Child],
       [(strB "/app", WatchKind.childrenWatch),
        (strB "/app", WatchKind.existsWatch c45Child)]) ∧
    strB "/app" ≠ strB "/app" ++ 47 :: valueEncode c45Child :=
  ⟨rfl, by decide⟩

unseal create_path in
/-- C6: counterexample to `dynamic = (metadata["dynamic"] != "false")`.
The instance `c6Ins` has `metadata["dynamic"] = "yes"`, which is not
`"false"`, so the claim demands an ephemeral leaf; but zk.rs:234-238
computes `dynamic = (value == "true")`, giving `false`, and registering
`c6Ins` into an empty tree creates its leaf persistent. -/
theorem C6_counterexample :
    List.lookup (strB "dynamic") c6Ins.metadata = some (strB "yes") ∧
    strB "yes" ≠ strB "false" ∧
    registerDynamic c6Ins = false ∧
    (registerIns c6Ins ⟨[], []⟩).toOption.map
        (fun t => List.lookup (c6Ins.appid ++ 47 :: valueEncode c6Ins) t.tree) =
      some (some Mode.persistent) :=
  ⟨rfl, by decide, rfl, rfl⟩

/-- C6 (amended): the `dynamic` flag of register is true exactly when
`metadata["dynamic"]` is absent or equal to `"true"` (any other value,
e.g. `"yes"`, gives `false`), and a successful non-short-circuited
`create_path` records the leaf with mode ephemeral iff dynamic. -/
theorem C6_amended :
    (∀ ins : Instance, registerDynamic ins = true ↔
        (List.lookup (strB "dynamic") ins.metadata = none ∨
         List.lookup (strB "dynamic") ins.metadata = some (strB "true"))) ∧
    (∀ (p : List Nat) (d : Bool) (s t : ZkSt),
        create_path p d s = .ok t → (d = false → p ∉ s.cache) →
        List.lookup p t.tree = some (if d then Mode.ephemeral else Mode.persistent)) := by
  constructor
  · intro ins
    rw [registerDynamic]
    cases hl : List.lookup (strB "dynamic") ins.metadata with
    | none => simp
    | some v =>
      simp only [Option.map_some', Option.getD_some, Option.some.injEq]
      constructor
      · intro hv
        exact Or.inr (eq_of_beq hv)
      · intro hv
        rcases hv with h1 | h2
        · exact absurd h1 (by simp)
        · rw [h2]
          exact beq_self_eq_true _
  · intro p d s t h hnc
    exact create_path_mode h hnc

unseal create_path in
/-- C6 witness: the amended characterisation applied at concrete inputs —
an instance with no `dynamic` key is dynamic, and a dynamic creation into
the empty state records an ephemeral node. -/
theorem C6_amended_witness :
    registerDynamic c45Child = true ∧
    List.lookup (strB "/e/x")
        ((⟨[(strB "/e/x", Mode.ephemeral), (strB "/e", Mode.persistent)],
           [strB "/e/x", strB "/e"]⟩ : ZkSt)).tree = some Mode.ephemeral := by
  constructor
  · exact (C6_amended.1 c45Child).mpr (Or.inl rfl)
  · exact C6_amended.2 (strB "/e/x") true ⟨[], []⟩
      ⟨[(strB "/e/x", Mode.ephemeral), (strB "/e", Mode.persistent)],
       [strB "/e/x", strB "/e"]⟩ rfl (by simp)

unseal create_path in
/-- C7: evaluation at the failing input.  With the coordination tree
already containing the ancestor "/a" (created by another process) and the
registry's cache empty, `create_path` of "/a/b" fails with
`CreatePath(NodeExists)`: the `exists` step of zk.rs:98-107 observes the
ancestor present and caches it, but then falls through to `create`
(zk.rs:121-132) instead of returning, so register fails where the claim
requires the existing ancestor to be tolerated. -/
theorem C7_ancestor_exists_eval :
    create_path (strB "/a/b") true ⟨[(strB "/a", Mode.persistent)], []⟩ =
      .error (.createPath .nodeExists) := rfl

unseal create_path in
/-- C8: counterexample to "registering twice fails for ephemeral and
persistent alike".  Registering the persistent leaf "/a/x" into an empty
state succeeds and caches the leaf path (zk.rs:133-136); a second
identical `create_path` is short-circuited by the cache hit (zk.rs:94-97)
and returns `Ok` unchanged instead of the claimed `CreatePath` "exists"
error. -/
theorem C8_counterexample :
    create_path (strB "/a/x") false ⟨[], []⟩ =
      .ok ⟨[(strB "/a/x", Mode.persistent), (strB "/a", Mode.persistent)],
           [strB "/a/x", strB "/a"]⟩ ∧
    create_path (strB "/a/x") false
        ⟨[(strB "/a/x", Mode.persistent), (strB "/a", Mode.persistent)],
         [strB "/a/x", strB "/a"]⟩ =
      .ok ⟨[(strB "/a/x", Mode.persistent), (strB "/a", Mode.persistent)],
           [strB "/a/x", strB "/a"]⟩ :=
  ⟨rfl, rfl⟩

/-- C8 (amended): registering twice without an intervening deregister
fails with `CreatePath(NodeExists)` on the second attempt for dynamic
(ephemeral) instances; for persistent instances the second attempt is
short-circuited by the exists-cache and returns `Ok` with the state
unchanged. -/
theorem C8_amended :
    (∀ (p : List Nat) (s t : ZkSt), create_path p true s = .ok t →
        create_path p true t = .error (.createPath .nodeExists)) ∧
    (∀ (p : List Nat) (s t : ZkSt), create_path p false s = .ok t →
        create_path p false t = .ok t) :=
  ⟨fun _ _ _ h => create_path_second_dyn h,
   fun _ _ _ h => create_path_second_persistent h⟩

unseal create_path in
/-- C8 witness: both halves of the amended claim applied after a concrete
first registration from the empty state. -/
theorem C8_amended_witness :
    create_path (strB "/e/x") true
        ⟨[(strB "/e/x", Mode.ephemeral), (strB "/e", Mode.persistent)],
         [strB "/e/x", strB "/e"]⟩ = .error (.createPath .nodeExists) ∧
    create_path (strB "/a/x") false
        ⟨[(strB "/a/x", Mode.persistent), (strB "/a", Mode.persistent)],
         [strB "/a/x", strB "/a"]⟩ =
      .ok ⟨[(strB "/a/x", Mode.persistent), (strB "/a", Mode.persistent)],
           [strB "/a/x", strB "/a"]⟩ := by
  constructor
  · exact C8_amended.1 (strB "/e/x") ⟨[], []⟩ _ rfl
  · exact C8_amended.2 (strB "/a/x") ⟨[], []⟩ _ rfl

/-- C10: every successful `create_path` — ephemeral leaf included — ends
with the created path in the shared exists-cache; the cache short-circuit
fires only for non-dynamic creations (a successful dynamic creation always
really creates the node, while a cached path short-circuits a persistent
creation to `Ok` with the state untouched); and a successful creation
started from an empty cache leaves the leaf and every proper ancestor
prefix in the cache. -/
theorem C10_cache_invariants :
    (∀ (p : List Nat) (d : Bool) (s t : ZkSt),
        create_path p d s = .ok t → p ∈ t.cache) ∧
    (∀ (p : List Nat) (s t : ZkSt), create_path p true s = .ok t →
        List.lookup p s.tree = none ∧ List.lookup p t.tree = some Mode.ephemeral) ∧
    (∀ (p : List Nat) (s : ZkSt), p ∈ s.cache → create_path p false s = .ok s) ∧
    (∀ (p : List Nat) (d : Bool) (tr : List (List Nat × Mode)) (t : ZkSt),
        create_path p d ⟨tr, []⟩ = .ok t →
        p ∈ t.cache ∧ ∀ a ∈ properAncestors p, a ∈ t.cache) :=
  ⟨fun _ _ _ _ h => create_path_ok_cache h,
   fun _ _ _ h => create_path_dyn_creates h,
   fun _ _ h => create_path_cached_short h,
   fun _ _ _ _ h => create_path_empty_cache h⟩

unseal create_path in
/-- C10 witness: the four invariants applied at concrete creations. -/
theorem C10_cache_invariants_witness :
    strB "/e/x" ∈ ([strB "/e/x", strB "/e"] : List (List Nat)) ∧
    (List.lookup (strB "/e/x") ([] : List (List Nat × Mode)) = none ∧
     List.lookup (strB "/e/x")
       [(strB "/e/x", Mode.ephemeral), (strB "/e", Mode.persistent)] =
         some Mode.ephemeral) ∧
    create_path (strB "/c") false ⟨[], [strB "/c"]⟩ = .ok ⟨[], [strB "/c"]⟩ ∧
    (strB "/a/x" ∈ ([strB "/a/x", strB "/a"] : List (List Nat)) ∧
     ∀ a ∈ properAncestors (strB "/a/x"),
       a ∈ ([strB "/a/x", strB "/a"] : List (List Nat))) := by
  refine ⟨?_, ?_, ?_, ?_⟩
  · exact C10_cache_invariants.1 (strB "/e/x") true ⟨[], []⟩
      ⟨[(strB "/e/x", Mode.ephemeral), (strB "/e", Mode.persistent)],
       [strB "/e/x", strB "/e"]⟩ rfl
  · exact C10_cache_invariants.2.1 (strB "/e/x") ⟨[], []⟩
      ⟨[(strB "/e/x", Mode.ephemeral), (strB "/e", Mode.persistent)],
       [strB "/e/x", strB "/e"]⟩ rfl
  · exact C10_cache_invariants.2.2.1 (strB "/c") ⟨[], [strB "/c"]⟩ (by simp)
  · exact C10_cache_invariants.2.2.2 (strB "/a/x") false []
      ⟨[(strB "/a/x", Mode.persistent), (strB "/a", Mode.persistent)],
       [strB "/a/x", strB "/a"]⟩ rfl
